import Mathlib

/-!
Verification of the struct-of-arrays container (`soa!` macro instantiations
`Soa2`/`Soa3`/`Soa4` in `src/lib.rs`).  We embed the representative arity-3
instantiation `Soa3` shallowly: each field sub-array is a map from slot index
to `Option` of the field value, where `none` models an uninitialized slot
(freshly allocated memory).  `len`/`capacity` are shared by all sub-arrays
exactly as in the Rust struct.  Panics (`swap_remove`, `get` bounds checks)
are modeled as `none`/`Option` results; `pop`'s `None` is the inner `Option`.
The layout calculator (`layout_for_capacity`) is embedded generically over an
ordered list of `(size, align)` field descriptors, mirroring
`Layout::array` / `Layout::extend` arithmetic with the `isize::MAX` bound.
-/

namespace SoaVec

/-- `ptr::write` of `v` at slot `i` of a field buffer. -/
def wr {δ : Type} (f : Nat → Option δ) (i : Nat) (v : δ) : Nat → Option δ :=
  fun j => if j = i then some v else f j

/-- `copy_nonoverlapping(src, freshDst, count)`: the first `count` slots are
copied from `src` into a freshly allocated (uninitialized) buffer. -/
def copyPrefix {δ : Type} (src : Nat → Option δ) (count : Nat) : Nat → Option δ :=
  fun j => if j < count then src j else none

/-- `copy_nonoverlapping(base.add(src), base.add(dst), 1)`: overwrite slot
`dst` with the contents of slot `src` of the same buffer. -/
def copyOne {δ : Type} (f : Nat → Option δ) (src dst : Nat) : Nat → Option δ :=
  fun j => if j = dst then f src else f j

/-- The struct generated by `soa!` for three fields: one shared `len`, one
shared `capacity`, and one base pointer (here: slot-indexed buffer) per
field.  `none` slots model uninitialized memory. -/
structure Soa3 (α β γ : Type) where
  len : Nat
  capacity : Nat
  t1 : Nat → Option α
  t2 : Nat → Option β
  t3 : Nat → Option γ

/-- `Soa3::new()`: empty, capacity 0, dangling (never-readable) buffers. -/
def Soa3.new (α β γ : Type) : Soa3 α β γ :=
  { len := 0, capacity := 0,
    t1 := fun _ => none, t2 := fun _ => none, t3 := fun _ => none }

variable {α β γ : Type}

/-- `check_grow`: if `len == capacity`, allocate `max(capacity*2, 4)` slots,
copy the first `len` elements of every field sub-array into the fresh buffer
(`copy_nonoverlapping`), release the old buffer and adopt the new one. -/
def Soa3.check_grow (s : Soa3 α β γ) : Soa3 α β γ :=
  if s.len = s.capacity then
    { s with
      capacity := max (s.capacity * 2) 4,
      t1 := copyPrefix s.t1 s.len,
      t2 := copyPrefix s.t2 s.len,
      t3 := copyPrefix s.t3 s.len }
  else s

/-- `push(value)`: grow if needed, then `write` each field at index `len`,
then increment `len`. -/
def Soa3.push (s : Soa3 α β γ) (v : α × β × γ) : Soa3 α β γ :=
  let g := s.check_grow
  { g with
    t1 := wr g.t1 g.len v.1,
    t2 := wr g.t2 g.len v.2.1,
    t3 := wr g.t3 g.len v.2.2,
    len := g.len + 1 }

/-- `pop()`: `None` when empty, otherwise decrement `len` and `read` the
fields previously at the freed index (memory itself is not modified). -/
def Soa3.pop (s : Soa3 α β γ) :
    Soa3 α β γ × Option (Option α × Option β × Option γ) :=
  if s.len = 0 then (s, none)
  else
    ({ s with len := s.len - 1 },
     some (s.t1 (s.len - 1), s.t2 (s.len - 1), s.t3 (s.len - 1)))

/-- `clear()`: `while len > 0 { pop() }`.  The second component is the list of
records discarded (hence torn down) by the loop, in pop order. -/
def Soa3.clearLoop (s : Soa3 α β γ) :
    Soa3 α β γ × List (Option α × Option β × Option γ) :=
  if hz : s.len = 0 then (s, [])
  else
    let p := s.pop
    let rest := p.1.clearLoop
    (rest.1, p.2.elim rest.2 (fun v => v :: rest.2))
termination_by s.len
decreasing_by simp only [Soa3.pop, if_neg hz]; omega

/-- `clear()`, state part. -/
def Soa3.clear (s : Soa3 α β γ) : Soa3 α β γ := s.clearLoop.1

/-- `swap_remove(index)`: `none` models the bounds panic.  Otherwise read out
the record at `index`, decrement `len`, and if the freed slot was not the
last live slot, relocate the record at the new `len` into it
(`copy_nonoverlapping`, a raw copy). -/
def Soa3.swap_remove (s : Soa3 α β γ) (index : Nat) :
    Option ((Option α × Option β × Option γ) × Soa3 α β γ) :=
  if index ≥ s.len then none
  else
    let v := (s.t1 index, s.t2 index, s.t3 index)
    let n := s.len - 1
    if n ≠ index then
      some (v, { s with
        len := n,
        t1 := copyOne s.t1 n index,
        t2 := copyOne s.t2 n index,
        t3 := copyOne s.t3 n index })
    else
      some (v, { s with len := n })

/-- `get(index)`: `none` models the bounds panic; otherwise per-field
references to the record at `index`. -/
def Soa3.get (s : Soa3 α β γ) (index : Nat) :
    Option (Option α × Option β × Option γ) :=
  if index ≥ s.len then none
  else some (s.t1 index, s.t2 index, s.t3 index)

/-- `slices()`: per field, exactly the first `len` elements. -/
def Soa3.slices (s : Soa3 α β γ) :
    List (Option α) × List (Option β) × List (Option γ) :=
  ((List.range s.len).map s.t1,
   (List.range s.len).map s.t2,
   (List.range s.len).map s.t3)

/-- Pushing the records `g 0, g 1, ..., g (n-1)` in order. -/
def Soa3.pushSeq (s : Soa3 α β γ) (g : Nat → α × β × γ) (n : Nat) :
    Soa3 α β γ :=
  (List.range n).foldl (fun t i => t.push (g i)) s

/-- The full record stored at slot `i` (defined when every field slot is
initialized). -/
def Soa3.recAt (s : Soa3 α β γ) (i : Nat) : Option (α × β × γ) :=
  match s.t1 i, s.t2 i, s.t3 i with
  | some a, some b, some c => some (a, b, c)
  | _, _, _ => none

/-- The sequence of live records, indices `0..len`. -/
def Soa3.recordList (s : Soa3 α β γ) : List (Option (α × β × γ)) :=
  (List.range s.len).map s.recAt

/-- `Drop::drop`: `clear()` (tearing down every live record) followed by
`dealloc()`, which releases the buffer exactly when `capacity > 0`.  Returns
the teardown log and whether an allocation was released. -/
def Soa3.dropRun (s : Soa3 α β γ) :
    List (Option α × Option β × Option γ) × Bool :=
  let c := s.clearLoop
  (c.2, decide (0 < c.1.capacity))

/-- `Clone::clone` with well-behaved field `Clone` (duplication returns an
equal value): capacity is set to the source `len`; a zero-length source gives
`Self::new()`; otherwise a fresh buffer receives clones of slots `0..len`. -/
def Soa3.clone (s : Soa3 α β γ) : Soa3 α β γ :=
  if s.len = 0 then Soa3.new α β γ
  else
    { len := s.len, capacity := s.len,
      t1 := copyPrefix s.t1 s.len,
      t2 := copyPrefix s.t2 s.len,
      t3 := copyPrefix s.t3 s.len }

/-- Writes duplicates of slots `0..n` of one field sub-array into a fresh
buffer, in increasing index order, using the field's own fallible duplication
`d`; fails with the index of the first failing slot. -/
def dupColumn {δ : Type} (buf : Nat → Option δ) (d : δ → Option δ) :
    Nat → Except Nat (Nat → Option δ)
  | 0 => Except.ok (fun _ => none)
  | n + 1 =>
    match dupColumn buf d n with
    | Except.error i => Except.error i
    | Except.ok out =>
      match (buf n).bind d with
      | none => Except.error n
      | some v => Except.ok (wr out n v)

/-- Outcome of a duplication failure, read off the `Clone::clone` source: the
clone loops carry no unwind guard, so when a field's `clone()` panics after
`dupsDone` successful duplications, zero teardown invocations are performed
on the already-duplicated values and the partial allocation is not
released. -/
structure CloneFailInfo where
  dupsDone : Nat
  torndown : Nat
  deallocCalled : Bool
  deriving DecidableEq, Repr

/-- `Clone::clone` with fallible per-field duplication: field 1 is duplicated
for all indices `0..len`, then field 2, then field 3 (the loop order of the
source).  A failure aborts with the state the unguarded code leaves behind:
no teardown, no release of the fresh buffer. -/
def Soa3.cloneFallible (d1 : α → Option α) (d2 : β → Option β)
    (d3 : γ → Option γ) (s : Soa3 α β γ) :
    Except CloneFailInfo (Soa3 α β γ) :=
  if s.len = 0 then Except.ok (Soa3.new α β γ)
  else
    match dupColumn s.t1 d1 s.len with
    | Except.error i =>
        Except.error { dupsDone := i, torndown := 0, deallocCalled := false }
    | Except.ok b1 =>
      match dupColumn s.t2 d2 s.len with
      | Except.error i =>
          Except.error
            { dupsDone := s.len + i, torndown := 0, deallocCalled := false }
      | Except.ok b2 =>
        match dupColumn s.t3 d3 s.len with
        | Except.error i =>
            Except.error
              { dupsDone := 2 * s.len + i, torndown := 0,
                deallocCalled := false }
        | Except.ok b3 =>
            Except.ok
              { len := s.len, capacity := s.len, t1 := b1, t2 := b2, t3 := b3 }

/-! ### Sort engine -/

/-- `true` unless the comparison answered `Greater` (the ascending-sort
predicate induced by an `Ordering`-valued comparator). -/
def ordLe (o : Ordering) : Bool :=
  match o with
  | Ordering.gt => false
  | _ => true

/-- Comparator lifted to possibly-uninitialized records.  In any reachable
execution the sort comparator only ever dereferences initialized slots
(indices `< len`), so the `none` branches are unreachable there; they are
fixed order-consistently (`none` below everything) to keep the predicate a
total preorder. -/
def recLe {δ : Type} (cmp : δ → δ → Ordering) :
    Option δ → Option δ → Bool
  | none, _ => true
  | some _, none => false
  | some x, some y => ordLe (cmp x y)

/-- The comparison the index sort uses: dereference the two candidate indices
into full records and apply the caller's comparator. -/
def Soa3.idxLe (s : Soa3 α β γ) (cmp : α × β × γ → α × β × γ → Ordering)
    (a b : Nat) : Bool :=
  recLe cmp (s.recAt a) (s.recAt b)

/-- Ordered insertion, the auxiliary step of the comparison sort below. -/
def insertLe {δ : Type} (le : δ → δ → Bool) (x : δ) : List δ → List δ
  | [] => [x]
  | y :: ys => if le x y then x :: y :: ys else y :: insertLe le x ys

/-- A comparison sort (insertion sort), the model of the source's unstable
comparison sort: its entire observable contract is that it returns a
permutation of its input that is sorted under `le`. -/
def sortBy {δ : Type} (le : δ → δ → Bool) : List δ → List δ
  | [] => []
  | x :: xs => insertLe le x (sortBy le xs)

/-- The target permutation: the index sequence `0..len` sorted by comparing
the records the indices point at (`indices` in the source). -/
def Soa3.sortPermOf (s : Soa3 α β γ)
    (cmp : α × β × γ → α × β × γ → Ordering) : List Nat :=
  sortBy (s.idxLe cmp) (List.range s.len)

/-- Pointwise update of an index array (`indices[i] = v` / `lookup[i] = v`). -/
def updN (f : Nat → Nat) (i v : Nat) : Nat → Nat :=
  fun j => if j = i then v else f j

/-- The transposition of `a` and `b` on slot indices. -/
def transp (a b : Nat) : Nat → Nat :=
  fun k => if k = a then b else if k = b then a else k

/-- `slice.swap(a, b)` on a field buffer. -/
def swapF {δ : Type} (f : Nat → Option δ) (a b : Nat) : Nat → Option δ :=
  fun k => f (transp a b k)

/-- `lookup` construction: `for (i, index) in indices.iter().enumerate()
\x7b lookup[*index] = i \x7d`, starting from uninitialized storage (modeled by
the junk value 0, overwritten for every slot that is ever read). -/
def mkLookup (idx : Nat → Nat) (n : Nat) : Nat → Nat :=
  (List.range n).foldl (fun lk i => updN lk (idx i) i) (fun _ => 0)

/-- State of the permutation-application loop: the `indices` and `lookup`
scratch arrays plus the three field buffers being permuted in lockstep. -/
structure SortSt (α β γ : Type) where
  indices : Nat → Nat
  lookup : Nat → Nat
  b1 : Nat → Option α
  b2 : Nat → Option β
  b3 : Nat → Option γ

/-- One iteration of the permutation-application loop: `dest = indices[i]`;
if `i != dest`, swap the records at `i` and `dest` in every field sub-array,
then `indices[lookup[i]] = dest; lookup[dest] = lookup[i]`. -/
def sortStep (st : SortSt α β γ) (i : Nat) : SortSt α β γ :=
  let dest := st.indices i
  if i ≠ dest then
    { indices := updN st.indices (st.lookup i) dest,
      lookup := updN st.lookup dest (st.lookup i),
      b1 := swapF st.b1 i dest,
      b2 := swapF st.b2 i dest,
      b3 := swapF st.b3 i dest }
  else st

/-- The permutation-application loop, `for i in 0..indices.len()`. -/
def sortLoop (st : SortSt α β γ) (n : Nat) : SortSt α β γ :=
  (List.range n).foldl sortStep st

/-- Invariant of the permutation-application loop after `i` iterations over
a target permutation `idx0` of `0..n` and original buffers `b1 b2 b3`:
`θ` tracks where each original slot's content currently lives (the buffers
are `θ`-rearrangements of the originals), slots `< i` are finalized, and for
the unprocessed ranks the `indices`/`lookup` scratch arrays stay mutually
inverse and confined to the unfinished region. -/
structure LoopInv (n i : Nat) (idx0 : Nat → Nat) (b1 : Nat → Option α)
    (b2 : Nat → Option β) (b3 : Nat → Option γ) (st : SortSt α β γ)
    (th : Nat → Nat) : Prop where
  inj : Function.Injective th
  fixHi : ∀ j, n ≤ j → th j = j
  placed : ∀ j, j < i → th j = idx0 j
  buf1 : ∀ k, st.b1 k = b1 (th k)
  buf2 : ∀ k, st.b2 k = b2 (th k)
  buf3 : ∀ k, st.b3 k = b3 (th k)
  ridx : ∀ r, i ≤ r → r < n →
    st.indices r < n ∧ i ≤ st.indices r ∧ th (st.indices r) = idx0 r ∧
      st.lookup (st.indices r) = r
  lkup : ∀ t, i ≤ t → t < n →
    i ≤ st.lookup t ∧ st.lookup t < n ∧ st.indices (st.lookup t) = t

/-- `sort_unstable_by(f)`: no-op when `len < 2`; otherwise sort the index
sequence `0..len` by dereferencing into records (a comparison sort with the
same contract as the source's unstable sort), build the inverse `lookup`
table, and apply the permutation in place across all field sub-arrays. -/
def Soa3.sort_unstable_by (s : Soa3 α β γ)
    (cmp : α × β × γ → α × β × γ → Ordering) : Soa3 α β γ :=
  if s.len < 2 then s
  else
    let idxL := s.sortPermOf cmp
    let idx0 : Nat → Nat := fun i => idxL.getD i 0
    let fin := sortLoop
      { indices := idx0, lookup := mkLookup idx0 s.len,
        b1 := s.t1, b2 := s.t2, b3 := s.t3 } s.len
    { s with t1 := fin.b1, t2 := fin.b2, t3 := fin.b3 }

/-! ### Layout calculator -/

/-- `isize::MAX` on the 64-bit targets the crate addresses. -/
def isizeMaxN : Nat := 2 ^ 63 - 1

/-- A `std::alloc::Layout`: size in bytes and alignment. -/
structure RLayout where
  size : Nat
  align : Nat
  deriving DecidableEq, Repr

/-- Round `s` up to the next multiple of `a` (Rust `padding_needed_for`
added to the size; for the power-of-two alignments Rust guarantees this
equals the masked formula the library uses). -/
def roundUpTo (s a : Nat) : Nat := (s + a - 1) / a * a

/-- `Layout::array::<T>(n)` for element size `sz` and alignment `al`:
size `sz * n`, failing (panic via `unwrap`) when the required size exceeds
`isize::MAX` adjusted for alignment slack. -/
def layoutArray (sz al n : Nat) : Option RLayout :=
  if sz * n ≤ isizeMaxN - (al - 1) then some ⟨sz * n, al⟩ else none

/-- `Layout::extend(next)`: pad the current size up to `next`'s alignment
(that padded size is the new field's byte offset), add `next`'s size, take
the max alignment; fail (panic via `unwrap`) when the result exceeds the
`isize::MAX` bound, rather than produce a wrapped layout. -/
def layoutExtend (l : RLayout) (nx : RLayout) : Option (RLayout × Nat) :=
  let al := max l.align nx.align
  let off := roundUpTo l.size nx.align
  let sz := off + nx.size
  if sz ≤ isizeMaxN - (al - 1) then some (⟨sz, al⟩, off) else none

/-- The `$(let (layout, $ts) = layout.extend(...))*` chain of
`layout_for_capacity`, generically over the remaining `(size, align)` field
descriptors; returns the final layout and the byte offsets of those
fields. -/
def layoutGo (cap : Nat) (l : RLayout) :
    List (Nat × Nat) → Option (RLayout × List Nat)
  | [] => some (l, [])
  | f :: rest =>
    match layoutArray f.1 f.2 cap with
    | none => none
    | some la =>
      match layoutExtend l la with
      | none => none
      | some (l', off) =>
        match layoutGo cap l' rest with
        | none => none
        | some (lfin, offs) => some (lfin, off :: offs)

/-- `layout_for_capacity(capacity)` for an ordered list of `(size, align)`
field descriptors: `Layout::array` of the first field (offset 0), extended by
an array layout for each further field.  Returns the total layout and the
byte offset of every field sub-array. -/
def layout_for_capacity (cap : Nat) :
    List (Nat × Nat) → Option (RLayout × List Nat)
  | [] => none
  | f1 :: rest =>
    match layoutArray f1.1 f1.2 cap with
    | none => none
    | some l0 =>
      match layoutGo cap l0 rest with
      | none => none
      | some (lfin, offs) => some (lfin, 0 :: offs)

/-- A byte `b` lies in the sub-array range starting at `off` with element
size `sz` and `cap` elements. -/
def inByteRange (b off sz cap : Nat) : Prop := off ≤ b ∧ b < off + sz * cap

/-- The shape of the offsets `layoutGo` computes: each field's sub-array
starts at or after the running size, and the running size past the last
field stays within the final layout size. -/
def chainOk (cap : Nat) : Nat → List (Nat × Nat) → List Nat → Nat → Prop
  | base, [], [], final => base ≤ final
  | base, f :: fs, o :: os, final =>
      base ≤ o ∧ chainOk cap (o + f.1 * cap) fs os final
  | _, _, _, _ => False

/-- The container invariant: `len ≤ capacity` and every field slot below
`len` is initialized (so index `i < len` holds a full record in every
sub-array). -/
def Soa3.Inv (s : Soa3 α β γ) : Prop :=
  s.len ≤ s.capacity ∧
    ∀ i, i < s.len →
      (s.t1 i).isSome ∧ (s.t2 i).isSome ∧ (s.t3 i).isSome

/-- States reachable from `new` by the public mutating/duplicating API. -/
inductive Reachable : Soa3 α β γ → Prop where
  | new : Reachable (Soa3.new α β γ)
  | push (s : Soa3 α β γ) (v : α × β × γ) :
      Reachable s → Reachable (s.push v)
  | pop (s : Soa3 α β γ) : Reachable s → Reachable s.pop.1
  | swap_remove (s s' : Soa3 α β γ) (k : Nat)
      (v : Option α × Option β × Option γ) :
      Reachable s → s.swap_remove k = some (v, s') → Reachable s'
  | clear (s : Soa3 α β γ) : Reachable s → Reachable s.clear
  | sort (s : Soa3 α β γ) (cmp : α × β × γ → α × β × γ → Ordering) :
      Reachable s → Reachable (s.sort_unstable_by cmp)
  | clone (s : Soa3 α β γ) : Reachable s → Reachable s.clone

/-! ### Basic lemmas about the core operations -/

theorem check_grow_len (s : Soa3 α β γ) : s.check_grow.len = s.len := by
  unfold Soa3.check_grow; split <;> rfl

theorem check_grow_capacity (s : Soa3 α β γ) :
    s.check_grow.capacity =
      if s.len = s.capacity then max (s.capacity * 2) 4 else s.capacity := by
  unfold Soa3.check_grow; split <;> simp_all

theorem check_grow_prefix (s : Soa3 α β γ) (i : Nat) (hi : i < s.len) :
    s.check_grow.t1 i = s.t1 i ∧ s.check_grow.t2 i = s.t2 i ∧
      s.check_grow.t3 i = s.t3 i := by
  unfold Soa3.check_grow
  split <;> simp [copyPrefix, hi]

theorem check_grow_room (s : Soa3 α β γ) (h : s.len ≤ s.capacity) :
    s.check_grow.len < s.check_grow.capacity := by
  rw [check_grow_len, check_grow_capacity]
  split <;> omega

theorem push_len (s : Soa3 α β γ) (v : α × β × γ) :
    (s.push v).len = s.len + 1 := by
  simp [Soa3.push, check_grow_len]

theorem push_capacity (s : Soa3 α β γ) (v : α × β × γ) :
    (s.push v).capacity =
      if s.len = s.capacity then max (s.capacity * 2) 4 else s.capacity := by
  simp [Soa3.push, check_grow_capacity]

theorem push_last (s : Soa3 α β γ) (v : α × β × γ) :
    (s.push v).t1 s.len = some v.1 ∧ (s.push v).t2 s.len = some v.2.1 ∧
      (s.push v).t3 s.len = some v.2.2 := by
  simp [Soa3.push, wr, check_grow_len]

theorem push_prefix (s : Soa3 α β γ) (v : α × β × γ) (i : Nat)
    (hi : i < s.len) :
    (s.push v).t1 i = s.t1 i ∧ (s.push v).t2 i = s.t2 i ∧
      (s.push v).t3 i = s.t3 i := by
  have hne : i ≠ s.check_grow.len := by rw [check_grow_len]; omega
  have hp := check_grow_prefix s i hi
  simp only [Soa3.push, wr]
  simp [hne, hp.1, hp.2.1, hp.2.2]

theorem pop_empty (s : Soa3 α β γ) (h : s.len = 0) : s.pop = (s, none) := by
  simp [Soa3.pop, h]

theorem pop_nonempty (s : Soa3 α β γ) (h : 0 < s.len) :
    s.pop = ({ s with len := s.len - 1 },
      some (s.t1 (s.len - 1), s.t2 (s.len - 1), s.t3 (s.len - 1))) := by
  have : ¬ s.len = 0 := by omega
  simp [Soa3.pop, this]

theorem pop_capacity (s : Soa3 α β γ) : s.pop.1.capacity = s.capacity := by
  unfold Soa3.pop; split <;> rfl

theorem pop_fields (s : Soa3 α β γ) :
    s.pop.1.t1 = s.t1 ∧ s.pop.1.t2 = s.t2 ∧ s.pop.1.t3 = s.t3 := by
  unfold Soa3.pop; split <;> exact ⟨rfl, rfl, rfl⟩

theorem swap_remove_oob (s : Soa3 α β γ) (k : Nat) (h : k ≥ s.len) :
    s.swap_remove k = none := by
  simp [Soa3.swap_remove, h]

theorem swap_remove_in (s : Soa3 α β γ) (k : Nat) (h : k < s.len) :
    ∃ s', s.swap_remove k = some ((s.t1 k, s.t2 k, s.t3 k), s') ∧
      s'.len = s.len - 1 ∧ s'.capacity = s.capacity ∧
      (k < s.len - 1 →
        (s'.t1 k = s.t1 (s.len - 1) ∧ s'.t2 k = s.t2 (s.len - 1) ∧
          s'.t3 k = s.t3 (s.len - 1)) ∧
        ∀ j, j ≠ k → s'.t1 j = s.t1 j ∧ s'.t2 j = s.t2 j ∧
          s'.t3 j = s.t3 j) ∧
      (k = s.len - 1 →
        s'.t1 = s.t1 ∧ s'.t2 = s.t2 ∧ s'.t3 = s.t3) := by
  have hnl : ¬ k ≥ s.len := by omega
  by_cases hk : s.len - 1 ≠ k
  · refine ⟨{ s with
      len := s.len - 1,
      t1 := copyOne s.t1 (s.len - 1) k,
      t2 := copyOne s.t2 (s.len - 1) k,
      t3 := copyOne s.t3 (s.len - 1) k }, ?_, rfl, rfl, ?_, by omega⟩
    · unfold Soa3.swap_remove
      simp [hnl, hk]
    · intro _
      constructor
      · simp [copyOne]
      · intro j hj
        simp [copyOne, hj]
  · refine ⟨{ s with len := s.len - 1 }, ?_, rfl, rfl, by omega, ?_⟩
    · unfold Soa3.swap_remove
      simp [hnl, hk]
    · intro _
      exact ⟨rfl, rfl, rfl⟩

theorem get_oob (s : Soa3 α β γ) (k : Nat) (h : k ≥ s.len) :
    s.get k = none := by
  simp [Soa3.get, h]

theorem get_in (s : Soa3 α β γ) (k : Nat) (h : k < s.len) :
    s.get k = some (s.t1 k, s.t2 k, s.t3 k) := by
  have hnl : ¬ k ≥ s.len := by omega
  simp [Soa3.get, hnl]

theorem clone_len (s : Soa3 α β γ) : s.clone.len = s.len := by
  unfold Soa3.clone; split <;> simp_all [Soa3.new]

theorem clone_capacity (s : Soa3 α β γ) : s.clone.capacity = s.len := by
  unfold Soa3.clone; split <;> simp_all [Soa3.new]

theorem clone_prefix (s : Soa3 α β γ) (i : Nat) (hi : i < s.len) :
    s.clone.t1 i = s.t1 i ∧ s.clone.t2 i = s.t2 i ∧
      s.clone.t3 i = s.t3 i := by
  unfold Soa3.clone
  split
  · omega
  · simp [copyPrefix, hi]

theorem clone_empty (s : Soa3 α β γ) (h : s.len = 0) :
    s.clone = Soa3.new α β γ := by
  simp [Soa3.clone, h]

theorem clone_frame (s s₂ : Soa3 α β γ) (hlen : s₂.len = s.len)
    (hpre : ∀ i, i < s.len →
      s₂.t1 i = s.t1 i ∧ s₂.t2 i = s.t2 i ∧ s₂.t3 i = s.t3 i) :
    s₂.clone = s.clone := by
  unfold Soa3.clone
  rw [hlen]
  split
  · rfl
  · have e1 : copyPrefix s₂.t1 s.len = copyPrefix s.t1 s.len := by
      funext j; unfold copyPrefix; split
      · exact (hpre j (by omega)).1
      · rfl
    have e2 : copyPrefix s₂.t2 s.len = copyPrefix s.t2 s.len := by
      funext j; unfold copyPrefix; split
      · exact (hpre j (by omega)).2.1
      · rfl
    have e3 : copyPrefix s₂.t3 s.len = copyPrefix s.t3 s.len := by
      funext j; unfold copyPrefix; split
      · exact (hpre j (by omega)).2.2
      · rfl
    rw [e1, e2, e3]

theorem clearLoop_spec (n : Nat) : ∀ s : Soa3 α β γ, s.len = n →
    s.clearLoop = ({ s with len := 0 },
      ((List.range n).reverse).map (fun i => (s.t1 i, s.t2 i, s.t3 i))) := by
  induction n with
  | zero =>
    intro s h
    rw [Soa3.clearLoop]
    cases s with
    | mk l c f1 f2 f3 =>
      simp only at h
      simp [h]
  | succ n ih =>
    intro s h
    rw [Soa3.clearLoop]
    have h0 : ¬ s.len = 0 := by omega
    simp only [h0, dite_false]
    rw [pop_nonempty s (by omega)]
    have hlen : (({ s with len := s.len - 1 } : Soa3 α β γ)).len = n := by
      simp; omega
    rw [ih _ hlen]
    simp only [Option.elim]
    rw [h, List.range_succ]
    simp [h]

theorem clear_spec (s : Soa3 α β γ) : s.clear = { s with len := 0 } := by
  rw [Soa3.clear, clearLoop_spec s.len s rfl]

theorem clearLoop_log (s : Soa3 α β γ) :
    s.clearLoop.2 =
      ((List.range s.len).reverse).map (fun i => (s.t1 i, s.t2 i, s.t3 i)) := by
  rw [clearLoop_spec s.len s rfl]

theorem dropRun_spec (s : Soa3 α β γ) :
    s.dropRun.1.length = s.len ∧ s.dropRun.2 = decide (0 < s.capacity) := by
  unfold Soa3.dropRun
  rw [clearLoop_spec s.len s rfl]
  simp

/-! ### The permutation-application loop -/

theorem transp_left (a b : Nat) : transp a b a = b := by
  simp [transp]

theorem transp_right (a b : Nat) : transp a b b = a := by
  unfold transp
  by_cases h : b = a <;> simp [h]

theorem transp_other (a b k : Nat) (h1 : k ≠ a) (h2 : k ≠ b) :
    transp a b k = k := by
  simp [transp, h1, h2]

theorem transp_transp (a b k : Nat) : transp a b (transp a b k) = k := by
  unfold transp
  by_cases h1 : k = a <;> by_cases h2 : k = b <;> simp_all

theorem transp_injective (a b : Nat) : Function.Injective (transp a b) :=
  Function.LeftInverse.injective (g := transp a b) (transp_transp a b)

theorem updN_same (f : Nat → Nat) (i v : Nat) : updN f i v i = v := by
  simp [updN]

theorem updN_other (f : Nat → Nat) (i v j : Nat) (h : j ≠ i) :
    updN f i v j = f j := by
  simp [updN, h]

theorem sortStep_eq_of_eq (st : SortSt α β γ) (i : Nat)
    (h : st.indices i = i) : sortStep st i = st := by
  simp [sortStep, h]

theorem sortStep_ne_indices (st : SortSt α β γ) (i : Nat)
    (h : i ≠ st.indices i) :
    (sortStep st i).indices = updN st.indices (st.lookup i) (st.indices i) := by
  simp [sortStep, h]

theorem sortStep_ne_lookup (st : SortSt α β γ) (i : Nat)
    (h : i ≠ st.indices i) :
    (sortStep st i).lookup = updN st.lookup (st.indices i) (st.lookup i) := by
  simp [sortStep, h]

theorem sortStep_ne_b1 (st : SortSt α β γ) (i : Nat)
    (h : i ≠ st.indices i) :
    (sortStep st i).b1 = swapF st.b1 i (st.indices i) := by
  simp [sortStep, h]

theorem sortStep_ne_b2 (st : SortSt α β γ) (i : Nat)
    (h : i ≠ st.indices i) :
    (sortStep st i).b2 = swapF st.b2 i (st.indices i) := by
  simp [sortStep, h]

theorem sortStep_ne_b3 (st : SortSt α β γ) (i : Nat)
    (h : i ≠ st.indices i) :
    (sortStep st i).b3 = swapF st.b3 i (st.indices i) := by
  simp [sortStep, h]

theorem sortStep_inv (n i : Nat) (idx0 : Nat → Nat)
    (H2 : ∀ r r', r < n → r' < n → idx0 r = idx0 r' → r = r')
    (b1 : Nat → Option α) (b2 : Nat → Option β) (b3 : Nat → Option γ)
    (st : SortSt α β γ) (th : Nat → Nat)
    (hinv : LoopInv n i idx0 b1 b2 b3 st th) (hi : i < n) :
    ∃ th', LoopInv n (i + 1) idx0 b1 b2 b3 (sortStep st i) th' := by
  obtain ⟨hdn, hdi, hthd, hlkd⟩ := hinv.ridx i (le_refl i) hi
  by_cases hd : st.indices i = i
  · -- `i == dest`: the iteration is a no-op and slot `i` is already correct.
    rw [sortStep_eq_of_eq st i hd]
    refine ⟨th, hinv.inj, hinv.fixHi, ?_, hinv.buf1, hinv.buf2, hinv.buf3,
      ?_, ?_⟩
    · intro j hj
      rcases Nat.lt_succ_iff_lt_or_eq.mp hj with hj' | hj'
      · exact hinv.placed j hj'
      · subst hj'
        have hx := hthd
        rw [hd] at hx
        exact hx
    · intro r hr1 hr2
      obtain ⟨g1, g2, g3, g4⟩ := hinv.ridx r (by omega) hr2
      refine ⟨g1, ?_, g3, g4⟩
      rcases Nat.lt_or_ge i (st.indices r) with h | h
      · omega
      · exfalso
        have he : st.indices r = i := by omega
        have : idx0 r = idx0 i := by
          rw [← g3, ← hthd, he, hd]
        exact absurd (H2 r i hr2 hi this) (by omega)
    · intro t ht1 ht2
      obtain ⟨g1, g2, g3⟩ := hinv.lkup t (by omega) ht2
      refine ⟨?_, g2, g3⟩
      rcases Nat.lt_or_ge i (st.lookup t) with h | h
      · omega
      · exfalso
        have he : st.lookup t = i := by omega
        rw [he, hd] at g3
        omega
  · -- `i != dest`: swap slots `i` and `dest` and patch the bookkeeping.
    have hd' : i ≠ st.indices i := fun h => hd h.symm
    have ei := sortStep_ne_indices st i hd'
    have el := sortStep_ne_lookup st i hd'
    obtain ⟨hl1, hl2, hl3⟩ := hinv.lkup i (le_refl i) hi
    -- `r0 = lookup[i]` is the rank whose content currently sits in slot `i`.
    have hr0i : st.lookup i ≠ i := by
      intro h
      rw [h] at hl3
      exact hd hl3
    have hr0gt : i + 1 ≤ st.lookup i := by omega
    have hdgt : i + 1 ≤ st.indices i := by omega
    have hthI : th i = idx0 (st.lookup i) := by
      have := (hinv.ridx (st.lookup i) hl1 hl2).2.2.1
      rw [hl3] at this
      exact this
    refine ⟨fun k => th (transp i (st.indices i) k), ?_, ?_, ?_, ?_, ?_, ?_,
      ?_, ?_⟩
    · exact hinv.inj.comp (transp_injective i (st.indices i))
    · intro j hj
      have h1 : j ≠ i := by omega
      have h2 : j ≠ st.indices i := by omega
      rw [transp_other _ _ _ h1 h2]
      exact hinv.fixHi j hj
    · intro j hj
      rcases Nat.lt_succ_iff_lt_or_eq.mp hj with hj' | hj'
      · have h1 : j ≠ i := by omega
        have h2 : j ≠ st.indices i := by omega
        rw [transp_other _ _ _ h1 h2]
        exact hinv.placed j hj'
      · subst hj'
        rw [transp_left]
        exact hthd
    · intro k
      rw [sortStep_ne_b1 st i hd']
      exact hinv.buf1 (transp i (st.indices i) k)
    · intro k
      rw [sortStep_ne_b2 st i hd']
      exact hinv.buf2 (transp i (st.indices i) k)
    · intro k
      rw [sortStep_ne_b3 st i hd']
      exact hinv.buf3 (transp i (st.indices i) k)
    · intro r hr1 hr2
      rw [ei, el]
      by_cases hr0 : r = st.lookup i
      · subst hr0
        rw [updN_same]
        refine ⟨hdn, hdgt, ?_, ?_⟩
        · rw [transp_right]
          exact hthI
        · rw [updN_same]
      · obtain ⟨g1, g2, g3, g4⟩ := hinv.ridx r (by omega) hr2
        have hne_i : st.indices r ≠ i := by
          intro h
          rw [h] at g3
          rw [hthI] at g3
          exact hr0 (H2 (st.lookup i) r hl2 hr2 g3).symm
        have hne_d : st.indices r ≠ st.indices i := by
          intro h
          rw [h] at g3
          rw [hthd] at g3
          have : i = r := H2 i r hi hr2 g3
          omega
        rw [updN_other _ _ _ _ hr0]
        refine ⟨g1, by omega, ?_, ?_⟩
        · rw [transp_other _ _ _ hne_i hne_d]
          exact g3
        · rw [updN_other _ _ _ _ hne_d]
          exact g4
    · intro t ht1 ht2
      rw [ei, el]
      by_cases htd : t = st.indices i
      · subst htd
        rw [updN_same, updN_same]
        exact ⟨hr0gt, hl2, rfl⟩
      · obtain ⟨g1, g2, g3⟩ := hinv.lkup t (by omega) ht2
        have hlt_i : st.lookup t ≠ i := by
          intro h
          rw [h] at g3
          exact htd g3.symm
        have hlt_r0 : st.lookup t ≠ st.lookup i := by
          intro h
          rw [h, hl3] at g3
          omega
        rw [updN_other _ _ _ _ htd]
        refine ⟨by omega, g2, ?_⟩
        rw [updN_other _ _ _ _ hlt_r0]
        exact g3

theorem sortLoop_zero (st : SortSt α β γ) : sortLoop st 0 = st := rfl

theorem sortLoop_succ (st : SortSt α β γ) (i : Nat) :
    sortLoop st (i + 1) = sortStep (sortLoop st i) i := by
  simp [sortLoop, List.range_succ]

theorem foldl_upd_eval (idx0 : Nat → Nat) : ∀ (m : Nat) (lk : Nat → Nat),
    (∀ r r', r < m → r' < m → idx0 r = idx0 r' → r = r') →
    ∀ r, r < m →
      ((List.range m).foldl (fun lk i => updN lk (idx0 i) i) lk) (idx0 r) = r := by
  intro m
  induction m with
  | zero => intro lk _ r hr; omega
  | succ m ih =>
    intro lk hinj r hr
    rw [List.range_succ, List.foldl_append]
    simp only [List.foldl_cons, List.foldl_nil]
    rcases Nat.lt_succ_iff_lt_or_eq.mp hr with hr' | hr'
    · have hne : idx0 r ≠ idx0 m := by
        intro h
        have := hinj r m (by omega) (by omega) h
        omega
      rw [updN_other _ _ _ _ hne]
      exact ih lk (fun a b ha hb => hinj a b (by omega) (by omega)) r hr'
    · subst hr'
      rw [updN_same]

theorem mkLookup_eval (idx0 : Nat → Nat) (n : Nat)
    (hinj : ∀ r r', r < n → r' < n → idx0 r = idx0 r' → r = r') :
    ∀ r, r < n → mkLookup idx0 n (idx0 r) = r :=
  foldl_upd_eval idx0 n (fun _ => 0) hinj

theorem sortLoop_inv (n : Nat) (idx0 lk0 : Nat → Nat)
    (H1 : ∀ r, r < n → idx0 r < n)
    (H2 : ∀ r r', r < n → r' < n → idx0 r = idx0 r' → r = r')
    (H3 : ∀ r, r < n → lk0 (idx0 r) = r)
    (H4 : ∀ t, t < n → ∃ r, r < n ∧ idx0 r = t)
    (b1 : Nat → Option α) (b2 : Nat → Option β) (b3 : Nat → Option γ) :
    ∀ i, i ≤ n → ∃ th, LoopInv n i idx0 b1 b2 b3
      (sortLoop ⟨idx0, lk0, b1, b2, b3⟩ i) th := by
  intro i
  induction i with
  | zero =>
    intro _
    rw [sortLoop_zero]
    refine ⟨id, Function.injective_id, fun j _ => rfl, fun j hj => by omega,
      fun k => rfl, fun k => rfl, fun k => rfl, ?_, ?_⟩
    · intro r _ hr
      exact ⟨H1 r hr, Nat.zero_le _, rfl, H3 r hr⟩
    · intro t _ ht
      obtain ⟨r, hrn, hrt⟩ := H4 t ht
      subst hrt
      dsimp only
      rw [H3 r hrn]
      exact ⟨Nat.zero_le _, hrn, rfl⟩
  | succ i ih =>
    intro h
    obtain ⟨th, hinv⟩ := ih (by omega)
    rw [sortLoop_succ]
    exact sortStep_inv n i idx0 H2 b1 b2 b3 _ th hinv (by omega)

theorem sortLoop_final (n : Nat) (idx0 lk0 : Nat → Nat)
    (H1 : ∀ r, r < n → idx0 r < n)
    (H2 : ∀ r r', r < n → r' < n → idx0 r = idx0 r' → r = r')
    (H3 : ∀ r, r < n → lk0 (idx0 r) = r)
    (H4 : ∀ t, t < n → ∃ r, r < n ∧ idx0 r = t)
    (b1 : Nat → Option α) (b2 : Nat → Option β) (b3 : Nat → Option γ) :
    ∀ j, j < n →
      (sortLoop ⟨idx0, lk0, b1, b2, b3⟩ n).b1 j = b1 (idx0 j) ∧
      (sortLoop ⟨idx0, lk0, b1, b2, b3⟩ n).b2 j = b2 (idx0 j) ∧
      (sortLoop ⟨idx0, lk0, b1, b2, b3⟩ n).b3 j = b3 (idx0 j) := by
  obtain ⟨th, hinv⟩ :=
    sortLoop_inv n idx0 lk0 H1 H2 H3 H4 b1 b2 b3 n (le_refl n)
  intro j hj
  have hp := hinv.placed j hj
  exact ⟨by rw [hinv.buf1 j, hp], by rw [hinv.buf2 j, hp],
    by rw [hinv.buf3 j, hp]⟩

/-! ### The sort as a whole -/

theorem insertLe_perm {δ : Type} (le : δ → δ → Bool) (x : δ) :
    ∀ l : List δ, (insertLe le x l).Perm (x :: l) := by
  intro l
  induction l with
  | nil => exact List.Perm.refl _
  | cons y ys ih =>
    unfold insertLe
    split
    · exact List.Perm.refl _
    · exact (ih.cons y).trans (List.Perm.swap x y ys)

theorem sortBy_perm {δ : Type} (le : δ → δ → Bool) :
    ∀ l : List δ, (sortBy le l).Perm l := by
  intro l
  induction l with
  | nil => exact List.Perm.refl _
  | cons x xs ih =>
    exact (insertLe_perm le x (sortBy le xs)).trans (ih.cons x)

theorem insertLe_sorted {δ : Type} (le : δ → δ → Bool)
    (htr : ∀ a b c, le a b = true → le b c = true → le a c = true)
    (hto : ∀ a b, le a b = true ∨ le b a = true) (x : δ) :
    ∀ l : List δ, l.Pairwise (fun a b => le a b = true) →
      (insertLe le x l).Pairwise (fun a b => le a b = true) := by
  intro l
  induction l with
  | nil => intro _; exact List.pairwise_singleton _ x
  | cons y ys ih =>
    intro hp
    unfold insertLe
    split
    · refine List.Pairwise.cons ?_ hp
      intro z hz
      rcases List.mem_cons.mp hz with hz' | hz'
      · subst hz'; assumption
      · exact htr x y z (by assumption) (List.rel_of_pairwise_cons hp hz')
    · refine List.Pairwise.cons ?_ (ih (List.Pairwise.of_cons hp))
      intro z hz
      have hz2 := (insertLe_perm le x ys).mem_iff.mp hz
      rcases List.mem_cons.mp hz2 with hz' | hz'
      · rw [hz']
        rcases hto x y with h | h
        · exact absurd h (by assumption)
        · exact h
      · exact List.rel_of_pairwise_cons hp hz'

theorem sortBy_sorted {δ : Type} (le : δ → δ → Bool)
    (htr : ∀ a b c, le a b = true → le b c = true → le a c = true)
    (hto : ∀ a b, le a b = true ∨ le b a = true) :
    ∀ l : List δ, (sortBy le l).Pairwise (fun a b => le a b = true) := by
  intro l
  induction l with
  | nil => exact List.Pairwise.nil
  | cons x xs ih => exact insertLe_sorted le htr hto x (sortBy le xs) ih

theorem sortPermOf_perm (s : Soa3 α β γ)
    (cmp : α × β × γ → α × β × γ → Ordering) :
    (s.sortPermOf cmp).Perm (List.range s.len) :=
  sortBy_perm _ _

theorem sortPermOf_length (s : Soa3 α β γ)
    (cmp : α × β × γ → α × β × γ → Ordering) :
    (s.sortPermOf cmp).length = s.len := by
  rw [(sortPermOf_perm s cmp).length_eq, List.length_range]

theorem sortPermOf_nodup (s : Soa3 α β γ)
    (cmp : α × β × γ → α × β × γ → Ordering) :
    (s.sortPermOf cmp).Nodup :=
  (sortPermOf_perm s cmp).symm.nodup (List.nodup_range s.len)

theorem sortIdx_lt (s : Soa3 α β γ) (cmp : α × β × γ → α × β × γ → Ordering)
    (r : Nat) (hr : r < s.len) : (s.sortPermOf cmp).getD r 0 < s.len := by
  have hl : r < (s.sortPermOf cmp).length := by rw [sortPermOf_length]; omega
  rw [List.getD_eq_getElem _ _ hl]
  have hm : (s.sortPermOf cmp)[r] ∈ s.sortPermOf cmp := List.getElem_mem hl
  have := (sortPermOf_perm s cmp).mem_iff.mp hm
  exact List.mem_range.mp this

theorem sortIdx_inj (s : Soa3 α β γ) (cmp : α × β × γ → α × β × γ → Ordering)
    (r r' : Nat) (hr : r < s.len) (hr' : r' < s.len)
    (h : (s.sortPermOf cmp).getD r 0 = (s.sortPermOf cmp).getD r' 0) :
    r = r' := by
  have hl : r < (s.sortPermOf cmp).length := by rw [sortPermOf_length]; omega
  have hl' : r' < (s.sortPermOf cmp).length := by rw [sortPermOf_length]; omega
  rw [List.getD_eq_getElem _ _ hl, List.getD_eq_getElem _ _ hl'] at h
  exact ((sortPermOf_nodup s cmp).getElem_inj_iff).mp h

theorem sortIdx_surj (s : Soa3 α β γ) (cmp : α × β × γ → α × β × γ → Ordering)
    (t : Nat) (ht : t < s.len) :
    ∃ r, r < s.len ∧ (s.sortPermOf cmp).getD r 0 = t := by
  have hm : t ∈ s.sortPermOf cmp :=
    (sortPermOf_perm s cmp).mem_iff.mpr (List.mem_range.mpr ht)
  obtain ⟨r, hr, he⟩ := List.mem_iff_getElem.mp hm
  refine ⟨r, by rw [sortPermOf_length] at hr; exact hr, ?_⟩
  rw [List.getD_eq_getElem _ _ hr]
  exact he

theorem sort_len (s : Soa3 α β γ) (cmp : α × β × γ → α × β × γ → Ordering) :
    (s.sort_unstable_by cmp).len = s.len := by
  unfold Soa3.sort_unstable_by
  split <;> rfl

theorem sort_capacity (s : Soa3 α β γ)
    (cmp : α × β × γ → α × β × γ → Ordering) :
    (s.sort_unstable_by cmp).capacity = s.capacity := by
  unfold Soa3.sort_unstable_by
  split <;> rfl

theorem sort_noop (s : Soa3 α β γ) (cmp : α × β × γ → α × β × γ → Ordering)
    (h : s.len < 2) : s.sort_unstable_by cmp = s := by
  simp [Soa3.sort_unstable_by, h]

theorem sort_eq_of_ge (s : Soa3 α β γ)
    (cmp : α × β × γ → α × β × γ → Ordering) (h : ¬ s.len < 2) :
    s.sort_unstable_by cmp =
      { s with
        t1 := (sortLoop ⟨fun i => (s.sortPermOf cmp).getD i 0,
          mkLookup (fun i => (s.sortPermOf cmp).getD i 0) s.len,
          s.t1, s.t2, s.t3⟩ s.len).b1,
        t2 := (sortLoop ⟨fun i => (s.sortPermOf cmp).getD i 0,
          mkLookup (fun i => (s.sortPermOf cmp).getD i 0) s.len,
          s.t1, s.t2, s.t3⟩ s.len).b2,
        t3 := (sortLoop ⟨fun i => (s.sortPermOf cmp).getD i 0,
          mkLookup (fun i => (s.sortPermOf cmp).getD i 0) s.len,
          s.t1, s.t2, s.t3⟩ s.len).b3 } := by
  rw [Soa3.sort_unstable_by, if_neg h]

theorem sort_fields (s : Soa3 α β γ)
    (cmp : α × β × γ → α × β × γ → Ordering) (j : Nat) (hj : j < s.len) :
    (s.sort_unstable_by cmp).t1 j = s.t1 ((s.sortPermOf cmp).getD j 0) ∧
    (s.sort_unstable_by cmp).t2 j = s.t2 ((s.sortPermOf cmp).getD j 0) ∧
    (s.sort_unstable_by cmp).t3 j = s.t3 ((s.sortPermOf cmp).getD j 0) := by
  by_cases hl : s.len < 2
  · have hlen : s.len = 1 := by omega
    have hj0 : j = 0 := by omega
    have hr1 : List.range 1 = [0] := rfl
    have hperm := sortPermOf_perm s cmp
    rw [hlen, hr1, List.perm_singleton] at hperm
    rw [sort_noop s cmp hl, hj0, hperm]
    exact ⟨rfl, rfl, rfl⟩
  · rw [sort_eq_of_ge s cmp hl]
    exact sortLoop_final s.len (fun i => (s.sortPermOf cmp).getD i 0)
      (mkLookup (fun i => (s.sortPermOf cmp).getD i 0) s.len)
      (fun r hr => sortIdx_lt s cmp r hr)
      (fun r r' hr hr' => sortIdx_inj s cmp r r' hr hr')
      (mkLookup_eval _ s.len (fun r r' hr hr' => sortIdx_inj s cmp r r' hr hr'))
      (fun t ht => sortIdx_surj s cmp t ht)
      s.t1 s.t2 s.t3 j hj

theorem sort_recAt (s : Soa3 α β γ)
    (cmp : α × β × γ → α × β × γ → Ordering) (j : Nat) (hj : j < s.len) :
    (s.sort_unstable_by cmp).recAt j =
      s.recAt ((s.sortPermOf cmp).getD j 0) := by
  obtain ⟨e1, e2, e3⟩ := sort_fields s cmp j hj
  unfold Soa3.recAt
  rw [e1, e2, e3]

theorem sort_recordList (s : Soa3 α β γ)
    (cmp : α × β × γ → α × β × γ → Ordering) :
    (s.sort_unstable_by cmp).recordList = (s.sortPermOf cmp).map s.recAt := by
  unfold Soa3.recordList
  rw [sort_len]
  apply List.ext_getElem
  · simp [sortPermOf_length]
  · intro k h1 h2
    simp only [List.getElem_map, List.getElem_range]
    have hk : k < s.len := by simpa using h1
    rw [sort_recAt s cmp k hk]
    congr 1
    rw [List.getD_eq_getElem]

theorem sort_recordList_perm (s : Soa3 α β γ)
    (cmp : α × β × γ → α × β × γ → Ordering) :
    (s.sort_unstable_by cmp).recordList.Perm s.recordList := by
  rw [sort_recordList]
  exact (sortPermOf_perm s cmp).map s.recAt

theorem recLe_trans (cmp : α × β × γ → α × β × γ → Ordering)
    (htr : ∀ x y z, ordLe (cmp x y) = true → ordLe (cmp y z) = true →
      ordLe (cmp x z) = true) :
    ∀ o1 o2 o3 : Option (α × β × γ), recLe cmp o1 o2 = true →
      recLe cmp o2 o3 = true → recLe cmp o1 o3 = true := by
  intro o1 o2 o3 h12 h23
  cases o1 with
  | none => rfl
  | some x =>
    cases o2 with
    | none => simp [recLe] at h12
    | some y =>
      cases o3 with
      | none => simp [recLe] at h23
      | some z =>
        simp only [recLe] at h12 h23 ⊢
        exact htr x y z h12 h23

theorem recLe_total (cmp : α × β × γ → α × β × γ → Ordering)
    (hto : ∀ x y, ordLe (cmp x y) = true ∨ ordLe (cmp y x) = true) :
    ∀ o1 o2 : Option (α × β × γ),
      (recLe cmp o1 o2 || recLe cmp o2 o1) = true := by
  intro o1 o2
  cases o1 with
  | none => rfl
  | some x =>
    cases o2 with
    | none => rfl
    | some y =>
      simp only [recLe]
      rcases hto x y with h | h <;> simp [h]

theorem sort_sorted (s : Soa3 α β γ)
    (cmp : α × β × γ → α × β × γ → Ordering)
    (htr : ∀ x y z, ordLe (cmp x y) = true → ordLe (cmp y z) = true →
      ordLe (cmp x z) = true)
    (hto : ∀ x y, ordLe (cmp x y) = true ∨ ordLe (cmp y x) = true)
    (i j : Nat) (hij : i < j) (hj : j < s.len) :
    recLe cmp ((s.sort_unstable_by cmp).recAt i)
      ((s.sort_unstable_by cmp).recAt j) = true := by
  have hpw := sortBy_sorted (s.idxLe cmp)
    (fun a b c hab hbc => recLe_trans cmp htr _ _ _ hab hbc)
    (fun a b => Bool.or_eq_true _ _ |>.mp (recLe_total cmp hto _ _))
    (List.range s.len)
  have hi : i < (s.sortPermOf cmp).length := by rw [sortPermOf_length]; omega
  have hjl : j < (s.sortPermOf cmp).length := by rw [sortPermOf_length]; omega
  have hidx := (List.pairwise_iff_getElem.mp hpw) i j hi hjl hij
  rw [sort_recAt s cmp i (by omega), sort_recAt s cmp j hj]
  rw [List.getD_eq_getElem _ _ hi, List.getD_eq_getElem _ _ hjl]
  exact hidx

/-! ### Invariant preservation -/

theorem inv_new : (Soa3.new α β γ).Inv := by
  refine ⟨le_refl 0, ?_⟩
  intro i hi
  simp [Soa3.new] at hi

theorem inv_push (s : Soa3 α β γ) (v : α × β × γ) (h : s.Inv) :
    (s.push v).Inv := by
  obtain ⟨hc, hs⟩ := h
  constructor
  · rw [push_len, push_capacity]
    have := check_grow_room s hc
    rw [check_grow_len, check_grow_capacity] at this
    omega
  · intro i hi
    rw [push_len] at hi
    rcases Nat.lt_succ_iff_lt_or_eq.mp hi with hi' | hi'
    · obtain ⟨e1, e2, e3⟩ := push_prefix s v i hi'
      obtain ⟨g1, g2, g3⟩ := hs i hi'
      rw [e1, e2, e3]
      exact ⟨g1, g2, g3⟩
    · subst hi'
      obtain ⟨e1, e2, e3⟩ := push_last s v
      rw [e1, e2, e3]
      exact ⟨rfl, rfl, rfl⟩

theorem inv_pop (s : Soa3 α β γ) (h : s.Inv) : s.pop.1.Inv := by
  obtain ⟨hc, hs⟩ := h
  obtain ⟨e1, e2, e3⟩ := pop_fields s
  have hlen : s.pop.1.len ≤ s.len := by
    unfold Soa3.pop
    split <;> simp
  refine ⟨by rw [pop_capacity]; omega, ?_⟩
  intro i hi
  rw [e1, e2, e3]
  exact hs i (by omega)

theorem inv_swap_remove (s s' : Soa3 α β γ) (k : Nat)
    (v : Option α × Option β × Option γ) (h : s.Inv)
    (he : s.swap_remove k = some (v, s')) : s'.Inv := by
  obtain ⟨hc, hs⟩ := h
  have hk : k < s.len := by
    by_contra hk
    rw [swap_remove_oob s k (by omega)] at he
    exact Option.noConfusion he
  obtain ⟨s'', he'', hlen, hcap, hmid, hlast⟩ := swap_remove_in s k hk
  rw [he''] at he
  obtain ⟨rfl, rfl⟩ : v = (s.t1 k, s.t2 k, s.t3 k) ∧ s'' = s' := by
    have := Option.some.inj he
    exact ⟨(Prod.mk.injEq _ _ _ _).mp this |>.1.symm,
      (Prod.mk.injEq _ _ _ _).mp this |>.2⟩
  refine ⟨by omega, ?_⟩
  intro i hi
  rw [hlen] at hi
  by_cases hkmid : k < s.len - 1
  · obtain ⟨hat, hoth⟩ := hmid hkmid
    by_cases hik : i = k
    · subst hik
      obtain ⟨a1, a2, a3⟩ := hat
      rw [a1, a2, a3]
      obtain ⟨g1, g2, g3⟩ := hs (s.len - 1) (by omega)
      exact ⟨g1, g2, g3⟩
    · obtain ⟨a1, a2, a3⟩ := hoth i hik
      rw [a1, a2, a3]
      exact hs i (by omega)
  · have hklast : k = s.len - 1 := by omega
    obtain ⟨a1, a2, a3⟩ := hlast hklast
    rw [a1, a2, a3]
    exact hs i (by omega)

theorem inv_clear (s : Soa3 α β γ) (_h : s.Inv) : s.clear.Inv := by
  rw [clear_spec]
  exact ⟨Nat.zero_le _, fun i hi => by simp at hi⟩

theorem inv_sort (s : Soa3 α β γ) (cmp : α × β × γ → α × β × γ → Ordering)
    (h : s.Inv) : (s.sort_unstable_by cmp).Inv := by
  obtain ⟨hc, hs⟩ := h
  refine ⟨by rw [sort_len, sort_capacity]; omega, ?_⟩
  intro i hi
  rw [sort_len] at hi
  obtain ⟨e1, e2, e3⟩ := sort_fields s cmp i hi
  rw [e1, e2, e3]
  exact hs _ (sortIdx_lt s cmp i hi)

theorem inv_clone (s : Soa3 α β γ) (h : s.Inv) : s.clone.Inv := by
  obtain ⟨hc, hs⟩ := h
  refine ⟨by rw [clone_len, clone_capacity], ?_⟩
  intro i hi
  rw [clone_len] at hi
  obtain ⟨e1, e2, e3⟩ := clone_prefix s i hi
  rw [e1, e2, e3]
  exact hs i hi

theorem reachable_inv (s : Soa3 α β γ) (h : Reachable s) : s.Inv := by
  induction h with
  | new => exact inv_new
  | push s v _ ih => exact inv_push s v ih
  | pop s _ ih => exact inv_pop s ih
  | swap_remove s s' k v _ he ih => exact inv_swap_remove s s' k v ih he
  | clear s _ ih => exact inv_clear s ih
  | sort s cmp _ ih => exact inv_sort s cmp ih
  | clone s _ ih => exact inv_clone s ih

/-! ### Layout calculator -/

theorem roundUpTo_ge (s a : Nat) (ha : 0 < a) : s ≤ roundUpTo s a := by
  rcases Nat.eq_zero_or_pos s with hs | hs
  · subst hs; exact Nat.zero_le _
  · unfold roundUpTo
    have hsub : s + a - 1 = (s - 1) + a := by omega
    rw [hsub, Nat.add_div_right _ ha, Nat.add_mul, one_mul]
    have h1 := Nat.div_add_mod' (s - 1) a
    have h2 : (s - 1) % a < a := Nat.mod_lt _ ha
    omega

theorem layoutArray_some (sz al n : Nat) (la : RLayout)
    (h : layoutArray sz al n = some la) :
    la = ⟨sz * n, al⟩ ∧ sz * n ≤ isizeMaxN - (al - 1) := by
  unfold layoutArray at h
  split at h
  · exact ⟨(Option.some.inj h).symm, by assumption⟩
  · exact Option.noConfusion h

theorem layoutExtend_some (l nx l' : RLayout) (off : Nat)
    (h : layoutExtend l nx = some (l', off)) :
    off = roundUpTo l.size nx.align ∧
      l' = ⟨off + nx.size, max l.align nx.align⟩ ∧
      off + nx.size ≤ isizeMaxN - (max l.align nx.align - 1) := by
  simp only [layoutExtend] at h
  split at h
  · have h2 := Option.some.inj h
    rw [Prod.mk.injEq] at h2
    obtain ⟨ha, hb⟩ := h2
    subst hb
    exact ⟨rfl, ha.symm, by assumption⟩
  · exact Option.noConfusion h

theorem layoutGo_chain (cap : Nat) : ∀ (fields : List (Nat × Nat))
    (l lfin : RLayout) (offs : List Nat),
    (∀ f ∈ fields, 0 < f.2) →
    layoutGo cap l fields = some (lfin, offs) →
    chainOk cap l.size fields offs lfin.size := by
  intro fields
  induction fields with
  | nil =>
    intro l lfin offs _ h
    simp only [layoutGo] at h
    have h2 := Option.some.inj h
    rw [Prod.mk.injEq] at h2
    obtain ⟨ha, hb⟩ := h2
    subst ha
    subst hb
    exact le_refl _
  | cons f fs ih =>
    intro l lfin offs hpos h
    unfold layoutGo at h
    cases hA : layoutArray f.1 f.2 cap with
    | none => simp [hA] at h
    | some la =>
      simp only [hA] at h
      cases hE : layoutExtend l la with
      | none => simp [hE] at h
      | some pr =>
        obtain ⟨l', off⟩ := pr
        simp only [hE] at h
        cases hG : layoutGo cap l' fs with
        | none => simp [hG] at h
        | some pr2 =>
          obtain ⟨lf2, offs2⟩ := pr2
          simp only [hG] at h
          have h2 := Option.some.inj h
          rw [Prod.mk.injEq] at h2
          obtain ⟨ha, hb⟩ := h2
          subst ha
          subst hb
          obtain ⟨hla, _⟩ := layoutArray_some _ _ _ la hA
          obtain ⟨hoff, hl', _⟩ := layoutExtend_some l la l' off hE
          have hrec := ih l' lf2 offs2
            (fun g hg => hpos g (List.mem_cons_of_mem f hg)) hG
          refine ⟨?_, ?_⟩
          · rw [hoff, hla]
            exact roundUpTo_ge l.size f.2 (hpos f (List.mem_cons_self f fs))
          · have hsz : l'.size = off + f.1 * cap := by
              rw [hl', hla]
            rw [← hsz]
            exact hrec

theorem layoutGo_size (cap : Nat) : ∀ (fields : List (Nat × Nat))
    (l lfin : RLayout) (offs : List Nat),
    layoutGo cap l fields = some (lfin, offs) →
    l.size ≤ isizeMaxN → lfin.size ≤ isizeMaxN := by
  intro fields
  induction fields with
  | nil =>
    intro l lfin offs h hb
    simp only [layoutGo] at h
    have h2 := Option.some.inj h
    rw [Prod.mk.injEq] at h2
    rw [← h2.1]
    exact hb
  | cons f fs ih =>
    intro l lfin offs h hb
    unfold layoutGo at h
    cases hA : layoutArray f.1 f.2 cap with
    | none => simp [hA] at h
    | some la =>
      simp only [hA] at h
      cases hE : layoutExtend l la with
      | none => simp [hE] at h
      | some pr =>
        obtain ⟨l', off⟩ := pr
        simp only [hE] at h
        cases hG : layoutGo cap l' fs with
        | none => simp [hG] at h
        | some pr2 =>
          obtain ⟨lf2, offs2⟩ := pr2
          simp only [hG] at h
          have h2 := Option.some.inj h
          rw [Prod.mk.injEq] at h2
          obtain ⟨ha, _⟩ := h2
          subst ha
          obtain ⟨_, hl', hbd⟩ := layoutExtend_some l la l' off hE
          refine ih l' lf2 offs2 hG ?_
          rw [hl']
          simp only [RLayout.mk.injEq] at *
          omega

theorem chainOk_facts (cap : Nat) : ∀ (fields : List (Nat × Nat))
    (offs : List Nat) (base final : Nat),
    chainOk cap base fields offs final →
    offs.length = fields.length ∧ base ≤ final ∧
    (∀ k, k < fields.length →
      base ≤ offs.getD k 0 ∧
      offs.getD k 0 + (fields.getD k (0, 1)).1 * cap ≤ final) ∧
    (∀ i j, i < j → j < fields.length →
      offs.getD i 0 + (fields.getD i (0, 1)).1 * cap ≤ offs.getD j 0) := by
  intro fields
  induction fields with
  | nil =>
    intro offs base final h
    cases offs with
    | nil =>
      refine ⟨rfl, h, ?_, ?_⟩
      · intro k hk; simp at hk
      · intro i j _ hj; simp at hj
    | cons o os => exact False.elim h
  | cons f fs ih =>
    intro offs base final h
    cases offs with
    | nil => exact False.elim h
    | cons o os =>
      obtain ⟨h1, h2⟩ := h
      obtain ⟨ihlen, ihbf, ihk, ihij⟩ := ih os (o + f.1 * cap) final h2
      refine ⟨by simp [ihlen], by omega, ?_, ?_⟩
      · intro k hk
        cases k with
        | zero =>
          simp only [List.getD_cons_zero]
          exact ⟨h1, ihbf⟩
        | succ k =>
          simp only [List.getD_cons_succ]
          have := ihk k (by simpa using hk)
          exact ⟨by omega, this.2⟩
      · intro i j hij hj
        cases i with
        | zero =>
          cases j with
          | zero => omega
          | succ j =>
            simp only [List.getD_cons_zero, List.getD_cons_succ]
            exact (ihk j (by simpa using hj)).1
        | succ i =>
          cases j with
          | zero => omega
          | succ j =>
            simp only [List.getD_cons_succ]
            exact ihij i j (by omega) (by simpa using hj)

theorem layout_for_capacity_spec (cap : Nat) (fields : List (Nat × Nat))
    (lay : RLayout) (offs : List Nat)
    (hpos : ∀ f ∈ fields, 0 < f.2)
    (h : layout_for_capacity cap fields = some (lay, offs)) :
    offs.length = fields.length ∧
    (∀ k, k < fields.length →
      offs.getD k 0 + (fields.getD k (0, 1)).1 * cap ≤ lay.size) ∧
    (∀ i j, i < j → j < fields.length →
      offs.getD i 0 + (fields.getD i (0, 1)).1 * cap ≤ offs.getD j 0) ∧
    lay.size ≤ isizeMaxN := by
  cases fields with
  | nil => exact Option.noConfusion h
  | cons f1 rest =>
    unfold layout_for_capacity at h
    cases hA : layoutArray f1.1 f1.2 cap with
    | none => simp [hA] at h
    | some l0 =>
      simp only [hA] at h
      cases hG : layoutGo cap l0 rest with
      | none => simp [hG] at h
      | some pr =>
        obtain ⟨lfin, offs2⟩ := pr
        simp only [hG] at h
        have h2 := Option.some.inj h
        rw [Prod.mk.injEq] at h2
        obtain ⟨ha, hb⟩ := h2
        subst ha
        subst hb
        obtain ⟨hl0, hbd0⟩ := layoutArray_some _ _ _ l0 hA
        have hchain := layoutGo_chain cap rest l0 lfin offs2
          (fun g hg => hpos g (List.mem_cons_of_mem f1 hg)) hG
        obtain ⟨hlen, hbf, hk, hij⟩ := chainOk_facts cap rest offs2 _ _ hchain
        have hl0sz : l0.size = f1.1 * cap := by rw [hl0]
        rw [hl0sz] at hbf hk
        refine ⟨by simp [hlen], ?_, ?_, ?_⟩
        · intro k hko
          cases k with
          | zero =>
            simp only [List.getD_cons_zero]
            omega
          | succ k =>
            simp only [List.getD_cons_succ]
            exact (hk k (by simpa using hko)).2
        · intro i j hijo hjo
          cases i with
          | zero =>
            cases j with
            | zero => omega
            | succ j =>
              simp only [List.getD_cons_zero, List.getD_cons_succ]
              have := (hk j (by simpa using hjo)).1
              omega
          | succ i =>
            cases j with
            | zero => omega
            | succ j =>
              simp only [List.getD_cons_succ]
              exact hij i j (by omega) (by simpa using hjo)
        · refine layoutGo_size cap rest l0 lfin offs2 hG ?_
          unfold isizeMaxN at *
          omega

theorem byte_ranges_disjoint (b o1 s1 o2 s2 cap : Nat)
    (h : o1 + s1 * cap ≤ o2) :
    ¬(inByteRange b o1 s1 cap ∧ inByteRange b o2 s2 cap) := by
  rintro ⟨⟨_, h1⟩, h2, _⟩
  omega

/-! ### Pushing a sequence of records -/

theorem pushSeq_succ (s : Soa3 α β γ) (g : Nat → α × β × γ) (n : Nat) :
    s.pushSeq g (n + 1) = (s.pushSeq g n).push (g n) := by
  simp [Soa3.pushSeq, List.range_succ]

theorem pushSeq_spec (g : Nat → α × β × γ) : ∀ n : Nat,
    ((Soa3.new α β γ).pushSeq g n).len = n ∧
    ∀ i, i < n →
      ((Soa3.new α β γ).pushSeq g n).t1 i = some (g i).1 ∧
      ((Soa3.new α β γ).pushSeq g n).t2 i = some (g i).2.1 ∧
      ((Soa3.new α β γ).pushSeq g n).t3 i = some (g i).2.2 := by
  intro n
  induction n with
  | zero => exact ⟨rfl, fun i hi => by omega⟩
  | succ n ih =>
    obtain ⟨hlen, hfld⟩ := ih
    rw [pushSeq_succ]
    constructor
    · rw [push_len, hlen]
    · intro i hi
      rcases Nat.lt_succ_iff_lt_or_eq.mp hi with hi' | hi'
      · obtain ⟨e1, e2, e3⟩ := push_prefix _ (g n) i (by rw [hlen]; omega)
        obtain ⟨f1, f2, f3⟩ := hfld i hi'
        exact ⟨by rw [e1, f1], by rw [e2, f2], by rw [e3, f3]⟩
      · subst hi'
        obtain ⟨e1, e2, e3⟩ := push_last ((Soa3.new α β γ).pushSeq g i) (g i)
        rw [hlen] at e1 e2 e3
        exact ⟨e1, e2, e3⟩

theorem pushSeq_slices (g : Nat → α × β × γ) (n : Nat) :
    ((Soa3.new α β γ).pushSeq g n).slices =
      ((List.range n).map (fun i => some (g i).1),
       (List.range n).map (fun i => some (g i).2.1),
       (List.range n).map (fun i => some (g i).2.2)) := by
  obtain ⟨hlen, hfld⟩ := pushSeq_spec g n
  unfold Soa3.slices
  rw [hlen]
  simp only [Prod.mk.injEq]
  refine ⟨?_, ?_, ?_⟩ <;>
    refine List.map_congr_left ?_ <;>
    intro a ha <;>
    have hal := List.mem_range.mp ha
  · exact (hfld a hal).1
  · exact (hfld a hal).2.1
  · exact (hfld a hal).2.2

/-! ### Claims -/

/-- C1: for every container and every total-order comparator over full
records, `sort_unstable_by` is a no-op when `len < 2`, and otherwise leaves
every field sub-array reordered by one and the same permutation of `0..len`
(so records stay intact), making the record sequence a permutation of the
original that is sorted non-decreasingly under the comparator. -/
theorem claim_C1_sort (cmp : α × β × γ → α × β × γ → Ordering)
    (htr : ∀ x y z, ordLe (cmp x y) = true → ordLe (cmp y z) = true →
      ordLe (cmp x z) = true)
    (hto : ∀ x y, ordLe (cmp x y) = true ∨ ordLe (cmp y x) = true)
    (s : Soa3 α β γ) :
    (s.len < 2 → s.sort_unstable_by cmp = s) ∧
    (s.sortPermOf cmp).Perm (List.range s.len) ∧
    (∀ j, j < s.len →
      (s.sort_unstable_by cmp).t1 j = s.t1 ((s.sortPermOf cmp).getD j 0) ∧
      (s.sort_unstable_by cmp).t2 j = s.t2 ((s.sortPermOf cmp).getD j 0) ∧
      (s.sort_unstable_by cmp).t3 j = s.t3 ((s.sortPermOf cmp).getD j 0)) ∧
    (s.sort_unstable_by cmp).recordList.Perm s.recordList ∧
    (∀ i j, i < j → j < s.len →
      recLe cmp ((s.sort_unstable_by cmp).recAt i)
        ((s.sort_unstable_by cmp).recAt j) = true) :=
  ⟨sort_noop s cmp, sortPermOf_perm s cmp, sort_fields s cmp,
   sort_recordList_perm s cmp,
   fun i j hij hj => sort_sorted s cmp htr hto i j hij hj⟩

/-- Witness for C1: the spec's example — records `(3,'a',4), (1,'b',5),
(2,'c',6)` sorted ascending by first field yield `(1,'b',5), (2,'c',6),
(3,'a',4)` — plus the permutation conjunct obtained from the theorem. -/
theorem claim_C1_witness :
    ((((((Soa3.new ℕ Char ℚ).push (3, 'a', 4)).push (1, 'b', 5)).push
      (2, 'c', 6)).sort_unstable_by
        (fun x y => if x.1 ≤ y.1 then Ordering.lt else Ordering.gt)).get 0 =
      some (some 1, some 'b', some 5)) ∧
    ((((((Soa3.new ℕ Char ℚ).push (3, 'a', 4)).push (1, 'b', 5)).push
      (2, 'c', 6)).sort_unstable_by
        (fun x y => if x.1 ≤ y.1 then Ordering.lt else Ordering.gt)).get 1 =
      some (some 2, some 'c', some 6)) ∧
    ((((((Soa3.new ℕ Char ℚ).push (3, 'a', 4)).push (1, 'b', 5)).push
      (2, 'c', 6)).sort_unstable_by
        (fun x y => if x.1 ≤ y.1 then Ordering.lt else Ordering.gt)).get 2 =
      some (some 3, some 'a', some 4)) ∧
    (((((Soa3.new ℕ Char ℚ).push (3, 'a', 4)).push (1, 'b', 5)).push
      (2, 'c', 6)).sortPermOf
        (fun x y => if x.1 ≤ y.1 then Ordering.lt else Ordering.gt)).Perm
      (List.range ((((Soa3.new ℕ Char ℚ).push (3, 'a', 4)).push
        (1, 'b', 5)).push (2, 'c', 6)).len) := by
  refine ⟨by decide, by decide, by decide, ?_⟩
  refine (claim_C1_sort
    (fun x y => if x.1 ≤ y.1 then Ordering.lt else Ordering.gt)
    ?_ ?_ _).2.1
  · intro x y z h1 h2
    by_cases hxz : x.1 ≤ z.1
    · simp [ordLe, hxz]
    · exfalso
      by_cases hxy : x.1 ≤ y.1
      · by_cases hyz : y.1 ≤ z.1
        · omega
        · simp [ordLe, hyz] at h2
      · simp [ordLe, hxy] at h1
  · intro x y
    by_cases hxy : x.1 ≤ y.1
    · left; simp [ordLe, hxy]
    · right
      have hyx : y.1 ≤ x.1 := by omega
      simp [ordLe, hyx]

/-- C2: `push` first runs the growth check (when `len == capacity` the new
capacity is `max(capacity*2, 4)` and the first `len` elements of every field
sub-array are copied order- and index-preservingly), then writes the pushed
record at index `len` and increments `len`; consequently pushing the records
`g 0 .. g (n-1)` into an empty container leaves `slices()` equal to the
pushed sequence at every index, for every field. -/
theorem claim_C2_push_growth (s : Soa3 α β γ) (v : α × β × γ) :
    (s.check_grow.capacity =
      if s.len = s.capacity then max (s.capacity * 2) 4 else s.capacity) ∧
    (∀ i, i < s.len → s.check_grow.t1 i = s.t1 i ∧
      s.check_grow.t2 i = s.t2 i ∧ s.check_grow.t3 i = s.t3 i) ∧
    (s.push v).len = s.len + 1 ∧
    ((s.push v).t1 s.len = some v.1 ∧ (s.push v).t2 s.len = some v.2.1 ∧
      (s.push v).t3 s.len = some v.2.2) ∧
    (∀ i, i < s.len → (s.push v).t1 i = s.t1 i ∧ (s.push v).t2 i = s.t2 i ∧
      (s.push v).t3 i = s.t3 i) ∧
    (∀ (n : Nat) (g : Nat → α × β × γ),
      ((Soa3.new α β γ).pushSeq g n).len = n ∧
      ((Soa3.new α β γ).pushSeq g n).slices =
        ((List.range n).map (fun i => some (g i).1),
         (List.range n).map (fun i => some (g i).2.1),
         (List.range n).map (fun i => some (g i).2.2))) :=
  ⟨check_grow_capacity s, check_grow_prefix s, push_len s v, push_last s v,
   push_prefix s v, fun n g => ⟨(pushSeq_spec g n).1, pushSeq_slices g n⟩⟩

/-- Witness for C2: pushing the records `(i, 2i, i+7)` for `i = 0..99`
(crossing the growth boundaries 4, 8, 16, 32, 64) gives exactly the pushed
sequence in `slices()`, plus a concretely evaluated slot. -/
theorem claim_C2_witness :
    ((Soa3.new ℕ ℕ ℕ).pushSeq (fun i => (i, 2 * i, i + 7)) 100).slices =
      ((List.range 100).map (fun i => some i),
       (List.range 100).map (fun i => some (2 * i)),
       (List.range 100).map (fun i => some (i + 7))) ∧
    ((Soa3.new ℕ ℕ ℕ).pushSeq (fun i => (i, 2 * i, i + 7)) 6).t1 5 =
      some 5 ∧
    ((Soa3.new ℕ ℕ ℕ).pushSeq (fun i => (i, 2 * i, i + 7)) 6).capacity = 8 := by
  refine ⟨?_, by decide, by decide⟩
  exact ((claim_C2_push_growth (Soa3.new ℕ ℕ ℕ) (0, 0, 0)).2.2.2.2.2 100
    (fun i => (i, 2 * i, i + 7))).2

/-- C3: `swap_remove k` fails with a bounds error when `k ≥ len`; otherwise
it returns exactly the record at index `k`, the length becomes `len - 1`,
and if `k` was not the last live slot, index `k` afterwards holds the record
originally at `len - 1` while every other index is unchanged; if `k` was the
last live slot, no slot is overwritten. -/
theorem claim_C3_swap_remove (s : Soa3 α β γ) (k : Nat) :
    (k ≥ s.len → s.swap_remove k = none) ∧
    (k < s.len → ∃ s',
      s.swap_remove k = some ((s.t1 k, s.t2 k, s.t3 k), s') ∧
      s'.len = s.len - 1 ∧
      (k < s.len - 1 →
        (s'.t1 k = s.t1 (s.len - 1) ∧ s'.t2 k = s.t2 (s.len - 1) ∧
          s'.t3 k = s.t3 (s.len - 1)) ∧
        ∀ j, j ≠ k → s'.t1 j = s.t1 j ∧ s'.t2 j = s.t2 j ∧
          s'.t3 j = s.t3 j) ∧
      (k = s.len - 1 → s'.t1 = s.t1 ∧ s'.t2 = s.t2 ∧ s'.t3 = s.t3)) :=
  ⟨swap_remove_oob s k, fun h => by
    obtain ⟨s', h1, h2, _, h4, h5⟩ := swap_remove_in s k h
    exact ⟨s', h1, h2, h4, h5⟩⟩

/-- Witness for C3: removing index 0 from records `10, 20, 30` returns
record `10`, moves record `30` into slot 0, and keeps record `20`;
an out-of-bounds index yields the bounds failure via the theorem. -/
theorem claim_C3_witness :
    ((Soa3.new ℕ ℕ ℕ).pushSeq (fun i => (10 * (i + 1), 0, 0)) 3).swap_remove
      5 = none ∧
    Option.map (fun p => (p.1.1, p.2.len, p.2.t1 0, p.2.t1 1))
      (((Soa3.new ℕ ℕ ℕ).pushSeq
        (fun i => (10 * (i + 1), 0, 0)) 3).swap_remove 0) =
      some (some 10, 2, some 30, some 20) :=
  ⟨(claim_C3_swap_remove _ 5).1 (by decide), by decide⟩

/-- C4: in every state reachable from a new container by push, pop,
swap_remove, clear, sort_unstable_by and clone, `len ≤ capacity` holds and
every field sub-array holds an initialized value at every index `i < len`
(the shared `len`/`capacity` and the record at index `i` being common to all
sub-arrays is the shape of the `Soa3` state itself). -/
theorem claim_C4_invariant (s : Soa3 α β γ) (h : Reachable s) :
    s.len ≤ s.capacity ∧
    ∀ i, i < s.len →
      (s.t1 i).isSome ∧ (s.t2 i).isSome ∧ (s.t3 i).isSome :=
  reachable_inv s h

/-- Witness for C4: a concrete reachable state (two pushes then a pop)
satisfies `len ≤ capacity` by the theorem. -/
theorem claim_C4_witness :
    ((((Soa3.new ℕ ℕ ℕ).push (1, 2, 3)).push (4, 5, 6)).pop.1).len ≤
      ((((Soa3.new ℕ ℕ ℕ).push (1, 2, 3)).push (4, 5, 6)).pop.1).capacity :=
  (claim_C4_invariant _
    (Reachable.pop _ (Reachable.push _ _
      (Reachable.push _ _ Reachable.new)))).1

/-- C5: `clone` produces a container of length `n` and capacity exactly `n`
(a tight clone), with every field of every record equal by value to the
source; it reads no source storage beyond index `len` (two sources agreeing
on `len` and the live slots produce equal clones), and cloning a length-0
container allocates nothing (it is `new`, capacity 0).  Storage independence
is automatic in this value-semantics embedding: the clone's buffers are
fresh values built only from the values read. -/
theorem claim_C5_clone (s : Soa3 α β γ) :
    s.clone.len = s.len ∧ s.clone.capacity = s.len ∧
    (∀ i, i < s.len → s.clone.t1 i = s.t1 i ∧ s.clone.t2 i = s.t2 i ∧
      s.clone.t3 i = s.t3 i) ∧
    (s.len = 0 → s.clone = Soa3.new α β γ) ∧
    (∀ s₂ : Soa3 α β γ, s₂.len = s.len →
      (∀ i, i < s.len → s₂.t1 i = s.t1 i ∧ s₂.t2 i = s.t2 i ∧
        s₂.t3 i = s.t3 i) →
      s₂.clone = s.clone) :=
  ⟨clone_len s, clone_capacity s, clone_prefix s, clone_empty s,
   fun s₂ h1 h2 => clone_frame s s₂ h1 h2⟩

/-- Witness for C5: a one-record container with spare capacity (4) clones to
capacity exactly 1, with the record intact. -/
theorem claim_C5_witness :
    ((Soa3.new ℕ ℕ ℕ).push (1, 2, 3)).clone.capacity = 1 ∧
    ((Soa3.new ℕ ℕ ℕ).push (1, 2, 3)).capacity = 4 ∧
    ((Soa3.new ℕ ℕ ℕ).push (1, 2, 3)).clone.t1 0 = some 1 :=
  ⟨(claim_C5_clone ((Soa3.new ℕ ℕ ℕ).push (1, 2, 3))).2.1.trans (by decide),
   by decide, by decide⟩

/-- C6: `pop` on an empty container returns the explicit empty result as
normal control flow (never a bounds failure); on a non-empty container it
decrements `len` and returns the fields previously at the last index.
`get` fails with a bounds error exactly when `index ≥ len`, and otherwise
returns references to exactly the stored record. -/
theorem claim_C6_pop_get (s : Soa3 α β γ) (k : Nat) :
    (s.len = 0 → s.pop = (s, none)) ∧
    (0 < s.len → s.pop = ({ s with len := s.len - 1 },
      some (s.t1 (s.len - 1), s.t2 (s.len - 1), s.t3 (s.len - 1)))) ∧
    (k ≥ s.len → s.get k = none) ∧
    (k < s.len → s.get k = some (s.t1 k, s.t2 k, s.t3 k)) :=
  ⟨pop_empty s, pop_nonempty s, get_oob s k, get_in s k⟩

/-- Witness for C6: popping the empty container returns the empty result and
the container unchanged; `get` returns the stored record in bounds and the
bounds failure out of bounds. -/
theorem claim_C6_witness :
    (Soa3.new ℕ ℕ ℕ).pop = (Soa3.new ℕ ℕ ℕ, none) ∧
    ((Soa3.new ℕ ℕ ℕ).push (7, 8, 9)).get 0 =
      some (some 7, some 8, some 9) ∧
    ((Soa3.new ℕ ℕ ℕ).push (7, 8, 9)).get 1 = none :=
  ⟨(claim_C6_pop_get (Soa3.new ℕ ℕ ℕ) 0).1 rfl,
   ((claim_C6_pop_get ((Soa3.new ℕ ℕ ℕ).push (7, 8, 9)) 0).2.2.2
     (by decide)).trans (by decide),
   (claim_C6_pop_get ((Soa3.new ℕ ℕ ℕ).push (7, 8, 9)) 1).2.2.1 (by decide)⟩

/-- C7: for every capacity and ordered list of field `(size, align)`
descriptors (any sizes and alignments), whenever the layout calculator
returns a layout, the field sub-array byte ranges are pairwise disjoint and
lie within the declared total size, which itself stays within the
`isize::MAX` bound — an overflowing required size can only produce the fatal
`none` outcome, never a wrapped or overlapping layout. -/
theorem claim_C7_layout (cap : Nat) (fields : List (Nat × Nat))
    (lay : RLayout) (offs : List Nat)
    (hpos : ∀ f ∈ fields, 0 < f.2)
    (h : layout_for_capacity cap fields = some (lay, offs)) :
    offs.length = fields.length ∧
    (∀ k, k < fields.length →
      offs.getD k 0 + (fields.getD k (0, 1)).1 * cap ≤ lay.size) ∧
    (∀ i j b, i ≠ j → i < fields.length → j < fields.length →
      ¬(inByteRange b (offs.getD i 0) (fields.getD i (0, 1)).1 cap ∧
        inByteRange b (offs.getD j 0) (fields.getD j (0, 1)).1 cap)) ∧
    lay.size ≤ isizeMaxN := by
  obtain ⟨h1, h2, h3, h4⟩ := layout_for_capacity_spec cap fields lay offs hpos h
  refine ⟨h1, h2, ?_, h4⟩
  intro i j b hij hi hj
  rcases Nat.lt_or_ge i j with hlt | hge
  · exact byte_ranges_disjoint b _ _ _ _ cap (h3 i j hlt hj)
  · have hlt : j < i := by omega
    intro hc
    exact byte_ranges_disjoint b _ _ _ _ cap (h3 j i hlt hi) ⟨hc.2, hc.1⟩

/-- Witness for C7: capacity 100 with a small field before a large one and
vice versa; both layouts are evaluated concretely and the boundary byte 104
is in neither of two ranges at once by the theorem. -/
theorem claim_C7_witness :
    layout_for_capacity 100 [(1, 1), (8, 8)] =
      some (⟨904, 8⟩, [0, 104]) ∧
    layout_for_capacity 100 [(8, 8), (1, 1)] =
      some (⟨900, 8⟩, [0, 800]) ∧
    ¬(inByteRange 104 0 1 100 ∧ inByteRange 104 104 8 100) := by
  refine ⟨by decide, by decide, ?_⟩
  exact (claim_C7_layout 100 [(1, 1), (8, 8)] ⟨904, 8⟩ [0, 104]
    (by decide) (by decide)).2.2.1 0 1 104 (by decide) (by decide) (by decide)

/-- C8: `clear` pops until `len == 0`, tearing down every removed record's
fields exactly once (the teardown log lists each live record once, in pop
order); destroying a container with `m` live records performs `m` teardowns
per field and then releases the allocation exactly when one exists; growth
relocates surviving records by raw copy — every surviving record's fields
are preserved verbatim, with no destroy-and-reconstruct. -/
theorem claim_C8_teardown (s : Soa3 α β γ) (v : α × β × γ) :
    s.clear.len = 0 ∧
    s.clearLoop.2 =
      ((List.range s.len).reverse).map (fun i => (s.t1 i, s.t2 i, s.t3 i)) ∧
    s.clearLoop.2.length = s.len ∧
    s.dropRun.1.length = s.len ∧
    s.dropRun.2 = decide (0 < s.capacity) ∧
    (s.check_grow.len = s.len ∧
      ∀ i, i < s.len → s.check_grow.t1 i = s.t1 i ∧
        s.check_grow.t2 i = s.t2 i ∧ s.check_grow.t3 i = s.t3 i) ∧
    (∀ i, i < s.len → (s.push v).t1 i = s.t1 i ∧ (s.push v).t2 i = s.t2 i ∧
      (s.push v).t3 i = s.t3 i) := by
  refine ⟨?_, clearLoop_log s, ?_, (dropRun_spec s).1, (dropRun_spec s).2,
    ⟨check_grow_len s, check_grow_prefix s⟩, push_prefix s v⟩
  · rw [clear_spec]
  · rw [clearLoop_log]
    simp

/-- Witness for C8: dropping a container with 3 live records performs
exactly 3 teardowns per field and releases its (nonempty) allocation. -/
theorem claim_C8_witness :
    ((Soa3.new ℕ ℕ ℕ).pushSeq (fun i => (i, i, i)) 3).dropRun.1.length = 3 ∧
    ((Soa3.new ℕ ℕ ℕ).pushSeq (fun i => (i, i, i)) 3).dropRun.2 = true :=
  ⟨((claim_C8_teardown ((Soa3.new ℕ ℕ ℕ).pushSeq (fun i => (i, i, i)) 3)
      (0, 0, 0)).2.2.2.1).trans (by decide),
   ((claim_C8_teardown ((Soa3.new ℕ ℕ ℕ).pushSeq (fun i => (i, i, i)) 3)
      (0, 0, 0)).2.2.2.2.1).trans (by decide)⟩

/-- C9: evaluating the clone failure path at a failing input: with a
two-record container, duplication of field 1 of the second record fails
after one value was already duplicated, and the unguarded clone loops
perform zero teardown invocations on the already-duplicated value and never
release the partial allocation — the records are leaked, contradicting the
spec's teardown-and-release requirement. -/
theorem claim_C9_clone_leak :
    Soa3.cloneFallible (fun x => if x = 2 then none else some x)
      (fun y => some y) (fun z => some z)
      (((Soa3.new ℕ ℕ ℕ).push (1, 10, 100)).push (2, 20, 200)) =
      Except.error
        { dupsDone := 1, torndown := 0, deallocCalled := false } := rfl

/-- C10: `pop`, `swap_remove`, `clear` and `sort_unstable_by` never change
the capacity (the backing buffer is neither reallocated nor released, which
in this embedding is the preservation of `capacity`), and `sort_unstable_by`
additionally leaves `len` unchanged. -/
theorem claim_C10_frame (s : Soa3 α β γ) (k : Nat)
    (cmp : α × β × γ → α × β × γ → Ordering) :
    s.pop.1.capacity = s.capacity ∧
    (∀ v s', s.swap_remove k = some (v, s') → s'.capacity = s.capacity) ∧
    s.clear.capacity = s.capacity ∧
    (s.sort_unstable_by cmp).capacity = s.capacity ∧
    (s.sort_unstable_by cmp).len = s.len := by
  refine ⟨pop_capacity s, ?_, ?_, sort_capacity s cmp, sort_len s cmp⟩
  · intro v s' he
    by_cases hk : k < s.len
    · obtain ⟨s'', he'', _, hcap, _, _⟩ := swap_remove_in s k hk
      rw [he''] at he
      have h2 := Option.some.inj he
      rw [Prod.mk.injEq] at h2
      rw [← h2.2]
      exact hcap
    · rw [swap_remove_oob s k (by omega)] at he
      exact Option.noConfusion he
  · rw [clear_spec]

/-- Witness for C10: sorting and popping a one-record container keep its
capacity 4. -/
theorem claim_C10_witness :
    (((Soa3.new ℕ ℕ ℕ).push (1, 1, 1)).sort_unstable_by
      (fun _ _ => Ordering.eq)).capacity = 4 ∧
    ((Soa3.new ℕ ℕ ℕ).push (1, 1, 1)).pop.1.capacity = 4 :=
  ⟨((claim_C10_frame ((Soa3.new ℕ ℕ ℕ).push (1, 1, 1)) 0
      (fun _ _ => Ordering.eq)).2.2.2.1).trans (by decide),
   ((claim_C10_frame ((Soa3.new ℕ ℕ ℕ).push (1, 1, 1)) 0
      (fun _ _ => Ordering.eq)).1).trans (by decide)⟩

end SoaVec
